import Mathlib

/-!
Verification of the lyrics/chord parsing-and-rendering engine of the
ChordsManagement repository (`src/data_processing.py`).

Strings are modelled as `List Char`.  Python regular expressions are shallowly
embedded: the chord-token grammar
`[A-G][#b]?(m|maj|min|dim|aug|sus|add)?\d*(/[A-G][#b]?)?` is embedded as an
explicit enumeration of its parses in Python's backtracking preference order
(`chordParses`), from which full-match, prefix-match and word-boundary
variants are derived.
-/

namespace Chords

abbrev Str := List Char

/-- Python whitespace set used by `str.strip` / `str.split` (ASCII part). -/
def pySpace (c : Char) : Bool :=
  c = ' ' || c = '\t' || c = '\n' || c = '\r' || c = '\x0b' || c = '\x0c'

/-- Python word character (`\w`), ASCII part: letters, digits, underscore. -/
def wordChar (c : Char) : Bool :=
  ('a' ≤ c && c ≤ 'z') || ('A' ≤ c && c ≤ 'Z') || ('0' ≤ c && c ≤ '9') || c = '_'

/-- `str.strip()`: drop leading and trailing whitespace. -/
def pyStrip (s : Str) : Str :=
  ((s.dropWhile pySpace).reverse.dropWhile pySpace).reverse

/-- `str.splitlines()` restricted to `'\n'` separators (the only line break
occurring in the repository's data): no entry is produced for a trailing
newline, and `""` yields `[]`. -/
def splitLines (s : Str) : List Str :=
  s.foldr
    (fun c acc =>
      if c = '\n' then [] :: acc
      else
        match acc with
        | [] => [[c]]
        | a :: as => (c :: a) :: as)
    []

/-- `str.split()` (no argument): split on whitespace runs, dropping empties. -/
def pySplit (s : Str) : List Str :=
  (s.foldr
    (fun c acc =>
      if pySpace c then [] :: acc
      else
        match acc with
        | [] => [[c]]
        | a :: as => (c :: a) :: as)
    []).filter (fun t => !t.isEmpty)

/-- `"\n".join(lines)`. -/
def joinNL : List Str → Str
  | [] => []
  | [l] => l
  | l :: ls => l ++ '\n' :: joinNL ls

/-- Root note `[A-G]`. -/
def isRoot (c : Char) : Bool := 'A' ≤ c && c ≤ 'G'

/-- Accidental `[#b]`. -/
def isAcc (c : Char) : Bool := c = '#' || c = 'b'

/-- The quality alternatives of the chord grammar, in the alternation order of
`CHORD_NORMALIZATION_PATTERN`: `m|maj|min|dim|aug|sus|add`. -/
def qualList : List Str :=
  [['m'], ['m','a','j'], ['m','i','n'], ['d','i','m'],
   ['a','u','g'], ['s','u','s'], ['a','d','d']]

/-- Parses of `[#b]?` at the head of `s`, in greedy preference order
(present first, then absent), as (consumed, rest) pairs. -/
def accOpts : Str → List (Str × Str)
  | [] => [([], [])]
  | c :: rest => if isAcc c then [([c], rest), ([], c :: rest)] else [([], c :: rest)]

/-- Parses of `(m|maj|min|dim|aug|sus|add)?` at the head of `s`, in preference
order: each alternative in alternation order, then the empty option. -/
def qualOpts (s : Str) : List (Str × Str) :=
  (qualList.filterMap fun q =>
    if s.take q.length = q then some (q, s.drop q.length) else none) ++ [([], s)]

/-- Parses of `\d*` at the head of `s`: greedy, longest first. -/
def digitOpts (s : Str) : List (Str × Str) :=
  let run := s.takeWhile Char.isDigit
  (List.range (run.length + 1)).reverse.map fun k => (s.take k, s.drop k)

/-- Parses of `(/[A-G][#b]?)?` at the head of `s`, in greedy preference order. -/
def bassOpts : Str → List (Str × Str)
  | c1 :: c2 :: rest =>
    if c1 = '/' && isRoot c2 then
      (accOpts rest).map (fun a => (c1 :: c2 :: a.1, a.2)) ++ [([], c1 :: c2 :: rest)]
    else [([], c1 :: c2 :: rest)]
  | s => [([], s)]

/-- All parses of the chord grammar `CHORD_NORMALIZATION_PATTERN`
(`[A-G][#b]?(m|maj|min|dim|aug|sus|add)?\d*(/[A-G][#b]?)?`) at the head of
`s`, as (consumed, rest) pairs, listed in Python's backtracking preference
order (earlier sub-expressions vary slowest, greedy options first). -/
def chordParses (s : Str) : List (Str × Str) :=
  match s with
  | [] => []
  | c :: rest =>
    if isRoot c then
      (accOpts rest).flatMap fun a =>
        (qualOpts a.2).flatMap fun q =>
          (digitOpts q.2).flatMap fun d =>
            (bassOpts d.2).map fun b =>
              (c :: (a.1 ++ q.1 ++ d.1 ++ b.1), b.2)
    else []

/-- Membership of `s` in the language of `CHORD_NORMALIZATION_PATTERN`:
some parse consumes all of `s`.  This is also the grammar of the text between
the parentheses of `CHORDS_PATTERN`. -/
def chordTok (s : Str) : Bool :=
  (chordParses s).any fun p => p.2.isEmpty

/-- `CHORD_REGEX.fullmatch(s)` where `CHORD_REGEX = \b P \b`:
the whole string is in the grammar and both word boundaries hold.  For a
full match the leading `\b` holds iff the first character is a word
character and the trailing `\b` holds iff the last character is one
(a boundary needs a word character on exactly one side, and the outside of
the string counts as non-word). -/
def CHORD_REGEX_fullmatch (s : Str) : Bool :=
  chordTok s && wordChar (s.headD ' ') && wordChar (s.getLastD ' ')

/-! ## Bracket tokenizer (`convert_lyrics_into_song_lines`) -/

/-- Attempt to read the tail of a `CHORDS_PATTERN` occurrence: `s` is the text
following a `'('`.  A match needs the text up to the first `')'` to be in the
chord grammar (the grammar contains neither parenthesis, so the closing
`')'` of a match is necessarily the first one).  Returns the chord name and
the text after the `')'`. -/
def readChord (s : Str) : Option (Str × Str) :=
  match s.dropWhile (fun c => c ≠ ')') with
  | ')' :: r =>
    if chordTok (s.takeWhile (fun c => c ≠ ')')) then
      some (s.takeWhile (fun c => c ≠ ')'), r)
    else none
  | _ => none

/-- `max(chords.keys()) + 1 if chords.keys() else 0` of the Python tokenizer. -/
def maxPosOf (m : List (Nat × Str)) : Nat :=
  match m with
  | [] => 0
  | _ => (m.map Prod.fst).foldr Nat.max 0 + 1

/-- Python `dict` assignment `m[k] = v`: update in place when the key exists
(keeping its slot in insertion order), otherwise append. -/
def dictInsert (m : List (Nat × Str)) (k : Nat) (v : Str) : List (Nat × Str) :=
  if m.any (fun p => p.1 = k) then
    m.map fun p => if p.1 = k then (k, v) else p
  else m ++ [(k, v)]

/-- One pass of the bracket tokenizer over a line, fuelled (fuel ≥ remaining
length; structural so that concrete inputs evaluate).  `e` is the number of
lyric characters emitted so far, which equals `match.start() - sub` of the
Python loop; `m` is the chords dict.  Returns the chord-stripped text of the
remaining input together with the final dict.  `re.finditer` scans left to
right, resuming after each match, and `re.sub` removes exactly the matched
substrings; a failed attempt at a `'('` leaves the character as text. -/
def scanF : Nat → Str → Nat → List (Nat × Str) → Str × List (Nat × Str)
  | 0, _, _, m => ([], m)
  | _ + 1, [], _, m => ([], m)
  | fuel + 1, c :: rest, e, m =>
    if c = '(' then
      match readChord rest with
      | some (tok, r) => scanF fuel r e (dictInsert m (Nat.max (maxPosOf m) e) tok)
      | none =>
        (c :: (scanF fuel rest (e + 1) m).1, (scanF fuel rest (e + 1) m).2)
    else
      (c :: (scanF fuel rest (e + 1) m).1, (scanF fuel rest (e + 1) m).2)

/-- The bracket tokenizer on one (already stripped) line: stripped text and
the ordered (position, chord) list. -/
def tokenizeLine (l : Str) : Str × List (Nat × Str) :=
  scanF l.length l 0 []

/-- Mirror of `scanF` recording whether the position-collision fallback
`max(max_position, start - sub)` ever fires, i.e. whether some match's
effective stripped position (`e`) is below the forced minimum key (`mp`,
the running `max(keys) + 1`).  `true` means every chord keeps its effective
position: no two bracket groups are glued together. -/
def noCollideF : Nat → Str → Nat → Nat → Bool
  | 0, _, _, _ => true
  | _ + 1, [], _, _ => true
  | fuel + 1, c :: rest, e, mp =>
    if c = '(' then
      match readChord rest with
      | some (_, r) => decide (mp ≤ e) && noCollideF fuel r e (Nat.max mp e + 1)
      | none => noCollideF fuel rest (e + 1) mp
    else noCollideF fuel rest (e + 1) mp

/-- A line has no glued (adjacent) bracket groups: the tokenizer's collision
fallback never fires on it. -/
def noAdjacentChords (l : Str) : Bool :=
  noCollideF l.length l 0 0

/-- A `Line` object of `data_processing.py` with its `Chord` children:
stripped text plus the ordered (position, name) annotations. -/
structure SongLine where
  text : Str
  chords : List (Nat × Str)
deriving DecidableEq

/-- `convert_lyrics_into_song_lines` (the lines it appends to the song):
split into lines, strip each, tokenize the bracketed chords.  Title and
artist bookkeeping of the Python function is irrelevant to the line data and
omitted. -/
def convert_lyrics_into_song_lines (lyrics : Str) : List SongLine :=
  (splitLines lyrics).map fun l =>
    let p := tokenizeLine (pyStrip l)
    ⟨p.1, p.2⟩

/-! ## Raw codec (`convert_song_lines_into_raw_lyrics`) -/

/-- Python slice-splice `t[:i] + ins + t[i:]`. -/
def insertAt (t : Str) (i : Nat) (ins : Str) : Str :=
  t.take i ++ ins ++ t.drop i

/-- The insertion loop of `convert_song_lines_into_raw_lyrics`: insert
`(name)` at `position + add`, where `add` accumulates `len(name) + 2`. -/
def renderChordsAux : Str → List (Nat × Str) → Nat → Str
  | t, [], _ => t
  | t, (p, n) :: cs, add =>
    renderChordsAux (insertAt t (p + add) ('(' :: n ++ [')'])) cs (add + n.length + 2)

/-- Structured form of the insertion loop used in the round-trip proof:
insert `(name)` at each (ascending) position, tracking the absolute index
`i` of the head of the remaining text `t`. -/
def renderRec : List (Nat × Str) → Str → Nat → Str
  | [], t, _ => t
  | (p, n) :: cs, t, i =>
    t.take (p - i) ++ '(' :: (n ++ ')' :: renderRec cs (t.drop (p - i)) p)

/-- `convert_song_lines_into_raw_lyrics`.  The Python function assigns the
rendered text back into `line.text` (mutation); the embedding therefore
returns both the result string and the lines as they are after the call. -/
def convert_song_lines_into_raw_lyrics : List SongLine → Str × List SongLine
  | [] => ([], [])
  | l :: ls =>
    (renderChordsAux l.text l.chords 0 ++ '\n' :: (convert_song_lines_into_raw_lyrics ls).1,
     ⟨renderChordsAux l.text l.chords 0, l.chords⟩ :: (convert_song_lines_into_raw_lyrics ls).2)

/-! ## Display codec (`convert_song_lines_into_formatted_lyrics`) -/

/-- The chord-row builder: pad with `' ' * (position - len(row))` (clamped at
zero as in Python) and append the name plus one space. -/
def chordsRow : List (Nat × Str) → Str → Str
  | [], row => row
  | (p, n) :: cs, row =>
    chordsRow cs (row ++ List.replicate (p - row.length) ' ' ++ n ++ [' '])

/-- `convert_song_lines_into_formatted_lyrics`: chord row and text row per
line, each newline-terminated.  It only reads the lines. -/
def convert_song_lines_into_formatted_lyrics : List SongLine → Str
  | [] => []
  | l :: ls =>
    chordsRow l.chords [] ++ '\n' :: (l.text ++ '\n' :: convert_song_lines_into_formatted_lyrics ls)

/-! ## Format normalizer (`normalize_lyrics` and helpers) -/

/-- `is_chord_line`: more than 60% of the whitespace tokens fully match
`CHORD_REGEX`.  `sum(...)/len(tokens) > 0.6` on IEEE doubles coincides with
the rational comparison `10 * sum > 6 * len` for every feasible token count
(the quotient is exactly representable-comparable against the double nearest
0.6, which lies strictly below 3/5). -/
def is_chord_line (l : Str) : Bool :=
  let ts := pySplit (pyStrip l)
  !ts.isEmpty && 6 * ts.length < 10 * (ts.countP CHORD_REGEX_fullmatch)

/-- Tail of the `is_inline_chord_lyrics` pattern: `CHORD_RAW_REGEX` (no word
boundaries) followed by one non-space character — some parse of the grammar
leaves a rest beginning with a non-space character. -/
def inlineTail (s : Str) : Bool :=
  (chordParses s).any fun p =>
    match p.2 with
    | [] => false
    | c :: _ => !pySpace c

/-- The starred prefix plus tail of `is_inline_chord_lyrics`'s pattern
`^((?:\b P \b\s+)*) P [^\s]`, fuelled.  A star iteration consumes a grammar
parse whose last character is a word character (the trailing `\b` before the
following whitespace) followed by the whole whitespace run (every
continuation of the pattern needs a non-space next character, so shorter
splits of `\s+` cannot succeed); the leading `\b` of an iteration holds
automatically after start-of-string or whitespace since roots are word
characters. -/
def inlineF : Nat → Str → Bool
  | 0, _ => false
  | fuel + 1, s =>
    inlineTail s ||
    (chordParses s).any fun p =>
      wordChar (p.1.getLastD ' ') &&
      (match p.2 with
       | c :: _ => pySpace c
       | [] => false) &&
      inlineF fuel (p.2.dropWhile pySpace)

/-- `is_inline_chord_lyrics(line)`: the inline pattern matches at the start
of the stripped line. -/
def is_inline_chord_lyrics (line : Str) : Bool :=
  inlineF (pyStrip line).length (pyStrip line)

/-- The first parse of `CHORD_REGEX` (`\b P \b`) at this exact position, in
Python preference order: a word boundary needs exactly one word-character
side, string ends counting as non-word.  The leading boundary is the
caller's concern (Python scans every start position). -/
def bareMatchAt (s : Str) : Option (Str × Str) :=
  (chordParses s).find? fun p =>
    wordChar (p.1.getLastD ' ') !=
      (match p.2 with
       | [] => false
       | c :: _ => wordChar c)

/-- `CHORD_REGEX.finditer`: scan left to right, fuelled; `i` is the current
absolute position and `prevW` whether the previous character is a word
character (for the leading `\b`).  On a match, resume right after it. -/
def finditerF : Nat → Str → Nat → Bool → List (Nat × Str)
  | 0, _, _, _ => []
  | _ + 1, [], _, _ => []
  | fuel + 1, c :: rest, i, prevW =>
    if prevW then finditerF fuel rest (i + 1) (wordChar c)
    else
      match bareMatchAt (c :: rest) with
      | some (tok, after) =>
        (i, tok) :: finditerF fuel after (i + tok.length) (wordChar (tok.getLastD ' '))
      | none => finditerF fuel rest (i + 1) (wordChar c)

/-- All matches of `CHORD_REGEX` in `s` with their start positions. -/
def CHORD_REGEX_finditer (s : Str) : List (Nat × Str) :=
  finditerF s.length s 0 false

/-- The while-loop of `merge_chord_and_lyric_lines`: walk the lyric line; at
an index where the next pending chord starts, splice `(chord)` before the
lyric character.  Chords whose start index is never reached are dropped. -/
def mergeAux : List (Nat × Str) → Str → Nat → Str
  | _, [], _ => []
  | [], c :: rest, i => c :: mergeAux [] rest (i + 1)
  | (p, n) :: cs, c :: rest, i =>
    if i = p then ('(' :: n ++ [')']) ++ c :: mergeAux cs rest (i + 1)
    else c :: mergeAux ((p, n) :: cs) rest (i + 1)

/-- `merge_chord_and_lyric_lines`. -/
def merge_chord_and_lyric_lines (chordLine lyricLine : Str) : Str :=
  mergeAux (CHORD_REGEX_finditer chordLine) lyricLine 0

/-- The token loop of `embed_inline_chords`: bare chords accumulate; a glued
token is split by the prefix-match `^(P)(\w+)` (first grammar parse, in
preference order, whose rest begins with a word character; the word is the
greedy `\w+` run); any other token ends the loop as the first lyric token. -/
def embedLoop : List Str → List Str × List Str
  | [] => ([], [])
  | t :: ts =>
    if CHORD_REGEX_fullmatch t then
      let p := embedLoop ts
      (t :: p.1, p.2)
    else
      match (chordParses t).find? (fun p =>
        match p.2 with
        | [] => false
        | c :: _ => wordChar c) with
      | some p => ([p.1], [p.2.takeWhile wordChar])
      | none => ([], [t])

/-- `embed_inline_chords`: bracket the leading bare chords, split the glued
token, then re-append `tokens[len(chords) + len(lyrics_tokens) - 1:]` (note
the deliberate `- 1`, which re-includes a token) and rebuild as
`f"{chord_part} {lyrics_part}".strip()`. -/
def embed_inline_chords (line : Str) : Str :=
  let tokens := pySplit (pyStrip line)
  let p := embedLoop tokens
  let lyr := p.2 ++ tokens.drop (p.1.length + p.2.length - 1)
  let chordPart := p.1.flatMap fun c => '(' :: c ++ [')']
  pyStrip (chordPart ++ ' ' :: (List.intercalate [' '] lyr))

/-- The line loop of `normalize_lyrics` on the split lines.  The Python
`skip_next` flag is the consumption of the lyric line after a merged chord
line; a chord line needs a successor line (`i + 1 < len(lines)`). -/
def normalizeLines : List Str → List Str
  | [] => []
  | [l] => if is_inline_chord_lyrics l then [embed_inline_chords l] else [l]
  | l1 :: l2 :: rest =>
    if is_chord_line l1 then
      merge_chord_and_lyric_lines l1 l2 :: normalizeLines rest
    else if is_inline_chord_lyrics l1 then
      embed_inline_chords l1 :: normalizeLines (l2 :: rest)
    else l1 :: normalizeLines (l2 :: rest)

/-- `normalize_lyrics`. -/
def normalize_lyrics (lyrics : Str) : Str :=
  joinNL (normalizeLines (splitLines lyrics))

/-! ## Tokenizer lemmas -/

theorem readChord_eq_some {s tok r : Str} (h : readChord s = some (tok, r)) :
    s = tok ++ ')' :: r ∧ chordTok tok = true := by
  have hsplit := List.takeWhile_append_dropWhile (p := fun c => c ≠ ')') (l := s)
  unfold readChord at h
  split at h
  next r' heq =>
    split at h
    next hct =>
      rw [Option.some.injEq, Prod.mk.injEq] at h
      obtain ⟨h1, h2⟩ := h
      subst h1; subst h2
      refine ⟨?_, hct⟩
      conv_lhs => rw [← hsplit]
      rw [heq]
    next => simp at h
  next => simp at h

theorem le_foldr_max (l : List Nat) (b : Nat) : ∀ k ∈ l, k ≤ l.foldr Nat.max b := by
  induction l with
  | nil => simp
  | cons a l ih =>
    intro k hk
    rcases List.mem_cons.1 hk with h | h
    · subst h; exact Nat.le_max_left _ _
    · exact le_trans (ih k h) (Nat.le_max_right _ _)

theorem foldr_max_le (l : List Nat) (b c : Nat) (hb : b ≤ c) (h : ∀ k ∈ l, k ≤ c) :
    l.foldr Nat.max b ≤ c := by
  induction l with
  | nil => simpa
  | cons a l ih =>
    simp only [List.foldr_cons]
    exact Nat.max_le.mpr
      ⟨h a (List.mem_cons_self _ _), ih fun k hk => h k (List.mem_cons_of_mem _ hk)⟩

theorem keys_lt_maxPosOf (m : List (Nat × Str)) : ∀ k ∈ m.map Prod.fst, k < maxPosOf m := by
  intro k hk
  cases m with
  | nil => simp at hk
  | cons p m' =>
    have := le_foldr_max ((p :: m').map Prod.fst) 0 k hk
    exact Nat.lt_succ_of_le this

theorem scan_dictInsert (m : List (Nat × Str)) (e : Nat) (v : Str) :
    dictInsert m (Nat.max (maxPosOf m) e) v = m ++ [(Nat.max (maxPosOf m) e, v)] := by
  have hne : m.any (fun p => p.1 = Nat.max (maxPosOf m) e) = false := by
    rw [List.any_eq_false]
    intro p hp
    simp only [decide_eq_true_eq]
    intro hcontra
    have h1 := keys_lt_maxPosOf m p.1 (List.mem_map_of_mem Prod.fst hp)
    rw [hcontra] at h1
    exact absurd (Nat.le_max_left (maxPosOf m) e) (not_le.mpr h1)
  unfold dictInsert
  rw [hne]
  simp

theorem foldr_max_init_le (l : List Nat) (b : Nat) : b ≤ l.foldr Nat.max b := by
  induction l with
  | nil => exact le_refl _
  | cons a l ih => exact le_trans ih (Nat.le_max_right _ _)

theorem maxPosOf_append (m : List (Nat × Str)) (k : Nat) (v : Str)
    (h : ∀ j ∈ m.map Prod.fst, j ≤ k) : maxPosOf (m ++ [(k, v)]) = k + 1 := by
  cases m with
  | nil => simp [maxPosOf]
  | cons p m' =>
    show ((p :: m' ++ [(k, v)]).map Prod.fst).foldr Nat.max 0 + 1 = k + 1
    have hfold : ((p :: m' ++ [(k, v)]).map Prod.fst).foldr Nat.max 0
        = (((p :: m').map Prod.fst)).foldr Nat.max k := by
      rw [show p :: m' ++ [(k, v)] = (p :: m') ++ [(k, v)] from rfl]
      rw [List.map_append, List.foldr_append]
      simp
    rw [hfold]
    have h1 : (((p :: m').map Prod.fst)).foldr Nat.max k ≤ k :=
      foldr_max_le _ _ _ (le_refl k) h
    have h2 : k ≤ (((p :: m').map Prod.fst)).foldr Nat.max k :=
      foldr_max_init_le _ _
    omega

theorem scanF_prefix (fuel : Nat) : ∀ (s : Str) (e : Nat) (m : List (Nat × Str)),
    ∃ N, (scanF fuel s e m).2 = m ++ N ∧ ∀ pn ∈ N, e ≤ pn.1 := by
  induction fuel with
  | zero => intro s e m; exact ⟨[], by simp [scanF], by simp⟩
  | succ fuel ih =>
    intro s e m
    cases s with
    | nil => exact ⟨[], by simp [scanF], by simp⟩
    | cons c rest =>
      by_cases hc : c = '('
      · rcases hr : readChord rest with _ | ⟨tok, r⟩
        · obtain ⟨N, h1, h2⟩ := ih rest (e + 1) m
          exact ⟨N, by simp [scanF, hc, hr, h1],
            fun pn hpn => le_trans (Nat.le_succ e) (h2 pn hpn)⟩
        · obtain ⟨N, h1, h2⟩ := ih r e (dictInsert m (Nat.max (maxPosOf m) e) tok)
          rw [scan_dictInsert] at h1
          refine ⟨(Nat.max (maxPosOf m) e, tok) :: N, ?_, ?_⟩
          · simp only [scanF, if_pos hc, hr]
            rw [scan_dictInsert m e tok, h1, List.append_assoc]
            rfl
          · intro pn hpn
            rcases List.mem_cons.1 hpn with h | h
            · subst h; exact Nat.le_max_right _ _
            · exact h2 pn h
      · obtain ⟨N, h1, h2⟩ := ih rest (e + 1) m
        exact ⟨N, by simp [scanF, hc, h1],
          fun pn hpn => le_trans (Nat.le_succ e) (h2 pn hpn)⟩

theorem scanF_sorted_bound (fuel : Nat) : ∀ (s : Str) (e : Nat) (m : List (Nat × Str)),
    List.Pairwise (· < ·) (m.map Prod.fst) →
    List.Pairwise (· < ·) ((scanF fuel s e m).2.map Prod.fst) ∧
    ∀ k ∈ (scanF fuel s e m).2.map Prod.fst,
      k < Nat.max (maxPosOf m) (e + (scanF fuel s e m).1.length)
          + ((scanF fuel s e m).2.length - m.length) := by
  induction fuel with
  | zero =>
    intro s e m hm
    refine ⟨by simpa [scanF] using hm, ?_⟩
    intro k hk
    simp only [scanF] at hk
    have h1 := keys_lt_maxPosOf m k hk
    exact lt_of_lt_of_le (lt_of_lt_of_le h1 (Nat.le_max_left _ _)) (Nat.le_add_right _ _)
  | succ fuel ih =>
    intro s e m hm
    cases s with
    | nil =>
      refine ⟨by simpa [scanF] using hm, ?_⟩
      intro k hk
      simp only [scanF] at hk
      have h1 := keys_lt_maxPosOf m k hk
      exact lt_of_lt_of_le (lt_of_lt_of_le h1 (Nat.le_max_left _ _)) (Nat.le_add_right _ _)
    | cons c rest =>
      by_cases hc : c = '('
      · rcases hr : readChord rest with _ | ⟨tok, r⟩
        · obtain ⟨hp, hb⟩ := ih rest (e + 1) m hm
          refine ⟨by simpa [scanF, hc, hr] using hp, ?_⟩
          intro k hk
          simp only [scanF, if_pos hc, hr] at hk ⊢
          have hbk := hb k hk
          have harith : (e + 1) + (scanF fuel rest (e + 1) m).1.length
              = e + ((scanF fuel rest (e + 1) m).1.length + 1) := by omega
          rw [harith] at hbk
          simpa using hbk
        · set key := Nat.max (maxPosOf m) e with hkey
          have hm1eq : dictInsert m key tok = m ++ [(key, tok)] := scan_dictInsert m e tok
          have hkeysle : ∀ j ∈ m.map Prod.fst, j ≤ key := fun j hj =>
            le_trans (le_of_lt (keys_lt_maxPosOf m j hj)) (Nat.le_max_left _ _)
          have hm1p : List.Pairwise (· < ·) ((m ++ [(key, tok)]).map Prod.fst) := by
            rw [List.map_append]
            rw [List.pairwise_append]
            refine ⟨hm, by simp, ?_⟩
            intro a ha b hb
            simp only [List.map_cons, List.map_nil, List.mem_singleton] at hb
            subst hb
            exact lt_of_lt_of_le (keys_lt_maxPosOf m a ha) (Nat.le_max_left _ _)
          have hmax1 : maxPosOf (m ++ [(key, tok)]) = key + 1 :=
            maxPosOf_append m key tok hkeysle
          obtain ⟨hp, hb⟩ := ih r e (m ++ [(key, tok)]) hm1p
          have hout : scanF (fuel + 1) (c :: rest) e m = scanF fuel r e (m ++ [(key, tok)]) := by
            simp only [scanF, if_pos hc, hr, hm1eq]
          rw [hout]
          refine ⟨hp, ?_⟩
          intro k hk
          have hbk := hb k hk
          rw [hmax1] at hbk
          obtain ⟨N, hN, -⟩ := scanF_prefix fuel r e (m ++ [(key, tok)])
          have hlen : (scanF fuel r e (m ++ [(key, tok)])).2.length ≥ m.length + 1 := by
            rw [hN]; simp
          set t := (scanF fuel r e (m ++ [(key, tok)])).1 with ht
          set L2 := (scanF fuel r e (m ++ [(key, tok)])).2.length with hL2
          have h1 : key ≤ Nat.max (maxPosOf m) (e + t.length) := by
            rw [hkey]
            exact Nat.max_le.mpr
              ⟨Nat.le_max_left _ _,
               le_trans (Nat.le_add_right e t.length) (Nat.le_max_right _ _)⟩
          have h2 : e + t.length ≤ Nat.max (maxPosOf m) (e + t.length) :=
            Nat.le_max_right _ _
          have h3 : Nat.max (key + 1) (e + t.length)
              ≤ Nat.max (maxPosOf m) (e + t.length) + 1 :=
            Nat.max_le.mpr ⟨by omega, by omega⟩
          have h4 : k < Nat.max (key + 1) (e + t.length) + (L2 - (m.length + 1)) := by
            simpa using hbk
          have h5 : Nat.max (key + 1) (e + t.length) + (L2 - (m.length + 1)) + 1
              ≤ Nat.max (maxPosOf m) (e + t.length) + (L2 - m.length) + 1 := by omega
          omega
      · obtain ⟨hp, hb⟩ := ih rest (e + 1) m hm
        refine ⟨by simpa [scanF, hc] using hp, ?_⟩
        intro k hk
        simp only [scanF, if_neg hc] at hk ⊢
        have hbk := hb k hk
        have harith : (e + 1) + (scanF fuel rest (e + 1) m).1.length
            = e + ((scanF fuel rest (e + 1) m).1.length + 1) := by omega
        rw [harith] at hbk
        simpa using hbk

/-! ## Round-trip lemmas -/

theorem renderRec_cons_lt (N : List (Nat × Str)) (c : Char) (t : Str) (i : Nat)
    (h : ∀ pn ∈ N, i < pn.1) :
    renderRec N (c :: t) i = c :: renderRec N t (i + 1) := by
  cases N with
  | nil => rfl
  | cons pn N' =>
    obtain ⟨p, n⟩ := pn
    have hp : i < p := h (p, n) (List.mem_cons_self _ _)
    have h1 : p - i = (p - (i + 1)) + 1 := by omega
    simp only [renderRec, h1, List.take_succ_cons, List.drop_succ_cons, List.cons_append]

theorem scanF_roundtrip (fuel : Nat) : ∀ (s : Str) (e : Nat) (m : List (Nat × Str)),
    s.length ≤ fuel →
    noCollideF fuel s e (maxPosOf m) = true →
    ∃ N, (scanF fuel s e m).2 = m ++ N
      ∧ (∀ pn ∈ N, e ≤ pn.1 ∧ pn.1 ≤ e + (scanF fuel s e m).1.length)
      ∧ renderRec N (scanF fuel s e m).1 e = s := by
  induction fuel with
  | zero =>
    intro s e m hlen _
    have hs : s = [] := List.eq_nil_of_length_eq_zero (Nat.le_zero.1 hlen)
    subst hs
    exact ⟨[], by simp [scanF], by simp, by simp [scanF, renderRec]⟩
  | succ fuel ih =>
    intro s e m hlen hnc
    cases s with
    | nil => exact ⟨[], by simp [scanF], by simp, by simp [scanF, renderRec]⟩
    | cons c rest =>
      by_cases hc : c = '('
      · rcases hr : readChord rest with _ | ⟨tok, r⟩
        · -- failed match attempt: the character is emitted as text
          have hnc' : noCollideF fuel rest (e + 1) (maxPosOf m) = true := by
            simpa [noCollideF, hc, hr] using hnc
          obtain ⟨N, h1, h2, h3⟩ := ih rest (e + 1) m (by simp at hlen; omega) hnc'
          refine ⟨N, by simp [scanF, hc, hr, h1], ?_, ?_⟩
          · intro pn hpn
            obtain ⟨ha, hb⟩ := h2 pn hpn
            simp only [scanF, if_pos hc, hr]
            constructor
            · omega
            · simp only [List.length_cons]; omega
          · simp only [scanF, if_pos hc, hr]
            rw [renderRec_cons_lt N c _ e (fun pn hpn => lt_of_lt_of_le (Nat.lt_succ_self e) (h2 pn hpn).1)]
            rw [h3]
        · -- a chord match
          obtain ⟨hdecomp, hct⟩ := readChord_eq_some hr
          have hrlen : r.length ≤ fuel := by
            have hl := congrArg List.length hdecomp
            simp only [List.length_append, List.length_cons] at hl
            simp only [List.length_cons] at hlen
            omega
          have hnc' := hnc
          simp only [noCollideF, if_pos hc, hr, Bool.and_eq_true, decide_eq_true_eq] at hnc'
          obtain ⟨hmp, hncr⟩ := hnc'
          have hkey : Nat.max (maxPosOf m) e = e := Nat.max_eq_right hmp
          have hm1 : dictInsert m (Nat.max (maxPosOf m) e) tok = m ++ [(e, tok)] := by
            rw [scan_dictInsert m e tok, hkey]
          have hmax1 : maxPosOf (m ++ [(e, tok)]) = e + 1 :=
            maxPosOf_append m e tok fun j hj =>
              le_trans (le_of_lt (keys_lt_maxPosOf m j hj)) hmp
          rw [hkey] at hncr
          obtain ⟨N, h1, h2, h3⟩ := ih r e (m ++ [(e, tok)]) hrlen (by rw [hmax1]; exact hncr)
          have hout : scanF (fuel + 1) (c :: rest) e m = scanF fuel r e (m ++ [(e, tok)]) := by
            simp only [scanF, if_pos hc, hr, hm1]
          refine ⟨(e, tok) :: N, ?_, ?_, ?_⟩
          · rw [hout, h1, List.append_assoc]
            rfl
          · intro pn hpn
            rcases List.mem_cons.1 hpn with h | h
            · subst h
              rw [hout]
              exact ⟨le_refl e, Nat.le_add_right _ _⟩
            · rw [hout]
              exact h2 pn h
          · rw [hout]
            simp only [renderRec, Nat.sub_self, List.take_zero, List.drop_zero, List.nil_append]
            rw [h3, hc, hdecomp]
      · -- an ordinary text character
        have hnc' : noCollideF fuel rest (e + 1) (maxPosOf m) = true := by
          simpa [noCollideF, hc] using hnc
        obtain ⟨N, h1, h2, h3⟩ := ih rest (e + 1) m (by simp at hlen; omega) hnc'
        refine ⟨N, by simp [scanF, hc, h1], ?_, ?_⟩
        · intro pn hpn
          obtain ⟨ha, hb⟩ := h2 pn hpn
          simp only [scanF, if_neg hc]
          constructor
          · omega
          · simp only [List.length_cons]; omega
        · simp only [scanF, if_neg hc]
          rw [renderRec_cons_lt N c _ e (fun pn hpn => lt_of_lt_of_le (Nat.lt_succ_self e) (h2 pn hpn).1)]
          rw [h3]

/-- The Python insertion loop agrees with the structured `renderRec` form on
position lists that are sorted and in range. -/
theorem renderChordsAux_eq_renderRec :
    ∀ (cs : List (Nat × Str)) (pre t : Str) (i add : Nat),
    pre.length = i + add →
    List.Chain' (· ≤ ·) (i :: cs.map Prod.fst) →
    (∀ pn ∈ cs, pn.1 ≤ i + t.length) →
    renderChordsAux (pre ++ t) cs add = pre ++ renderRec cs t i := by
  intro cs
  induction cs with
  | nil => intro pre t i add _ _ _; rfl
  | cons pn cs ih =>
    obtain ⟨p, n⟩ := pn
    intro pre t i add hlen hchain hub
    have hip : i ≤ p := (List.chain'_cons.1 hchain).1
    have hpt : p ≤ i + t.length := hub (p, n) (List.mem_cons_self _ _)
    have htake : (t.take (p - i)).length = p - i := by
      rw [List.length_take]
      omega
    have hsplit : insertAt (pre ++ t) (p + add) ('(' :: n ++ [')'])
        = (pre ++ t.take (p - i) ++ ('(' :: n ++ [')'])) ++ t.drop (p - i) := by
      unfold insertAt
      have hidx : p + add = pre.length + (p - i) := by omega
      rw [hidx, List.take_append_eq_append_take, List.drop_append_eq_append_drop]
      rw [List.take_of_length_le (by omega), List.drop_of_length_le (by omega)]
      simp [List.append_assoc]
    show renderChordsAux (insertAt (pre ++ t) (p + add) ('(' :: n ++ [')'])) cs (add + n.length + 2)
        = pre ++ renderRec ((p, n) :: cs) t i
    rw [hsplit]
    rw [ih (pre ++ t.take (p - i) ++ ('(' :: n ++ [')'])) (t.drop (p - i)) p (add + n.length + 2)
      (by simp only [List.length_append, htake, List.length_cons]; simp; omega)
      (by
        have := (List.chain'_cons.1 hchain).2
        exact this)
      (by
        intro qn hqn
        have h1 := hub qn (List.mem_cons_of_mem _ hqn)
        rw [List.length_drop]
        omega)]
    simp only [renderRec, List.append_assoc, List.cons_append, List.nil_append]

/-- Tokenizing a glued-chord-free line and re-inserting the chords with the
raw-codec loop reproduces the line. -/
theorem line_roundtrip (l : Str) (h : noAdjacentChords l = true) :
    renderChordsAux (tokenizeLine l).1 (tokenizeLine l).2 0 = l := by
  obtain ⟨N, h1, h2, h3⟩ := scanF_roundtrip l.length l 0 [] (le_refl _)
    (by
      have hmp : maxPosOf [] = 0 := rfl
      rw [hmp]
      exact h)
  have hN : (tokenizeLine l).2 = N := by
    rw [show (tokenizeLine l).2 = (scanF l.length l 0 []).2 from rfl, h1]
    rfl
  have hsorted : List.Pairwise (· < ·) ((tokenizeLine l).2.map Prod.fst) :=
    (scanF_sorted_bound l.length l 0 [] (by simp)).1
  rw [← hN] at h2 h3
  have hchain : List.Chain' (· ≤ ·) ((0 : Nat) :: (tokenizeLine l).2.map Prod.fst) := by
    have h' : List.Chain' (· ≤ ·) ((tokenizeLine l).2.map Prod.fst) :=
      List.Chain'.imp (fun _ _ hab => le_of_lt hab) hsorted.chain'
    cases hks : (tokenizeLine l).2.map Prod.fst with
    | nil => simp
    | cons k ks =>
      rw [hks] at h'
      exact List.chain'_cons.2 ⟨Nat.zero_le _, h'⟩
  have heq := renderChordsAux_eq_renderRec (tokenizeLine l).2 [] (tokenizeLine l).1 0 0 rfl hchain
    (fun pn hpn => by simpa using (h2 pn hpn).2)
  rw [show ([] : Str) ++ (tokenizeLine l).1 = (tokenizeLine l).1 from rfl] at heq
  rw [heq]
  simpa using h3

/-! ## Splitting, joining and stripping lemmas -/

theorem splitLines_cons (c : Char) (t : Str) :
    splitLines (c :: t) =
      if c = '\n' then [] :: splitLines t
      else
        match splitLines t with
        | [] => [[c]]
        | a :: as => (c :: a) :: as := rfl

theorem splitLines_no_newline (s : Str) : ∀ l ∈ splitLines s, '\n' ∉ l := by
  induction s with
  | nil => simp [splitLines]
  | cons c t ih =>
    rw [splitLines_cons]
    by_cases hc : c = '\n'
    · rw [if_pos hc]
      intro l hl
      rcases List.mem_cons.1 hl with h | h
      · subst h; simp
      · exact ih l h
    · rw [if_neg hc]
      rcases ht : splitLines t with _ | ⟨a, as⟩
      · intro l hl
        simp only [List.mem_singleton] at hl
        subst hl
        intro hmem
        simp only [List.mem_singleton] at hmem
        exact hc hmem.symm
      · intro l hl
        rcases List.mem_cons.1 hl with h | h
        · subst h
          intro hmem
          rcases List.mem_cons.1 hmem with h' | h'
          · exact hc h'.symm
          · exact ih a (by rw [ht]; exact List.mem_cons_self _ _) h'
        · exact ih l (by rw [ht]; exact List.mem_cons_of_mem _ h)

theorem splitLines_append_newline (l1 t : Str) (h : '\n' ∉ l1) :
    splitLines (l1 ++ '\n' :: t) = l1 :: splitLines t := by
  induction l1 with
  | nil => rw [List.nil_append, splitLines_cons, if_pos rfl]
  | cons c l1' ih =>
    have hc : c ≠ '\n' := fun hcc => h (by rw [hcc]; exact List.mem_cons_self _ _)
    have h' : '\n' ∉ l1' := fun hm => h (List.mem_cons_of_mem _ hm)
    rw [List.cons_append, splitLines_cons, if_neg hc, ih h']

theorem splitLines_single (l : Str) (hne : l ≠ []) (h : '\n' ∉ l) : splitLines l = [l] := by
  induction l with
  | nil => exact absurd rfl hne
  | cons c t ih =>
    have hc : c ≠ '\n' := fun hcc => h (by rw [hcc]; exact List.mem_cons_self _ _)
    have h' : '\n' ∉ t := fun hm => h (List.mem_cons_of_mem _ hm)
    rw [splitLines_cons, if_neg hc]
    cases t with
    | nil => rfl
    | cons a t' => rw [ih (by simp) h']

theorem splitLines_joinNL : ∀ (ls : List Str), (∀ l ∈ ls, '\n' ∉ l) →
    ls.getLast? ≠ some [] → splitLines (joinNL ls) = ls := by
  intro ls
  induction ls with
  | nil => intro _ _; rfl
  | cons l ls ih =>
    intro hnl hlast
    cases ls with
    | nil =>
      have hne : l ≠ [] := by
        intro hl; subst hl; exact hlast rfl
      exact splitLines_single l hne (hnl l (List.mem_cons_self _ _))
    | cons l2 ls' =>
      rw [show joinNL (l :: l2 :: ls') = l ++ '\n' :: joinNL (l2 :: ls') from rfl]
      rw [splitLines_append_newline _ _ (hnl l (List.mem_cons_self _ _))]
      rw [ih (fun x hx => hnl x (List.mem_cons_of_mem _ hx)) (by simpa using hlast)]

theorem splitLines_termNL : ∀ (ls : List Str), (∀ l ∈ ls, '\n' ∉ l) →
    splitLines (ls.foldr (fun l acc => l ++ '\n' :: acc) []) = ls := by
  intro ls
  induction ls with
  | nil => intro _; rfl
  | cons l ls ih =>
    intro h
    rw [List.foldr_cons, splitLines_append_newline _ _ (h l (List.mem_cons_self _ _))]
    rw [ih fun x hx => h x (List.mem_cons_of_mem _ hx)]

theorem raw_fst_eq (ls : List SongLine) :
    (convert_song_lines_into_raw_lyrics ls).1
      = (ls.map fun l => renderChordsAux l.text l.chords 0).foldr
          (fun l acc => l ++ '\n' :: acc) [] := by
  induction ls with
  | nil => rfl
  | cons l ls ih => simp [convert_song_lines_into_raw_lyrics, ih]

theorem dropWhile_head_not (p : Char → Bool) (l : Str) :
    ∀ c, (l.dropWhile p).head? = some c → p c = false := by
  induction l with
  | nil => simp [List.dropWhile]
  | cons a t ih =>
    intro c hc
    by_cases ha : p a
    · rw [List.dropWhile_cons_of_pos ha] at hc
      exact ih c hc
    · rw [List.dropWhile_cons_of_neg ha] at hc
      simp only [List.head?_cons, Option.some.injEq] at hc
      subst hc
      simpa using ha

theorem dropWhile_getLast? (p : Char → Bool) (l : Str) :
    l.dropWhile p = [] ∨ (l.dropWhile p).getLast? = l.getLast? := by
  induction l with
  | nil => left; rfl
  | cons a t ih =>
    by_cases ha : p a
    · rw [List.dropWhile_cons_of_pos ha]
      rcases ih with h | h
      · left; exact h
      · cases t with
        | nil => left; rfl
        | cons b t' =>
          right
          rw [h, List.getLast?_cons_cons]
    · rw [List.dropWhile_cons_of_neg ha]
      right; rfl

theorem dropWhile_eq_self_of_head (p : Char → Bool) (l : Str)
    (h : ∀ c, l.head? = some c → p c = false) : l.dropWhile p = l := by
  cases l with
  | nil => rfl
  | cons a t => exact List.dropWhile_cons_of_neg (by simpa using h a rfl)

/-- A string with a non-space first character and a non-space last character
(or the empty string). -/
def strippedStr (s : Str) : Prop :=
  (∀ c, s.head? = some c → pySpace c = false) ∧
  (∀ c, s.getLast? = some c → pySpace c = false)

theorem pyStrip_stripped (s : Str) : strippedStr (pyStrip s) := by
  unfold pyStrip strippedStr
  constructor
  · intro c hc
    rw [List.head?_reverse] at hc
    rcases dropWhile_getLast? pySpace (s.dropWhile pySpace).reverse with h | h
    · rw [h] at hc; simp at hc
    · rw [h, List.getLast?_reverse] at hc
      exact dropWhile_head_not pySpace s c hc
  · intro c hc
    rw [List.getLast?_reverse] at hc
    exact dropWhile_head_not pySpace (s.dropWhile pySpace).reverse c hc

theorem pyStrip_of_stripped (s : Str) (h : strippedStr s) : pyStrip s = s := by
  obtain ⟨h1, h2⟩ := h
  unfold pyStrip
  rw [dropWhile_eq_self_of_head pySpace s h1]
  rw [dropWhile_eq_self_of_head pySpace s.reverse
    (fun c hc => h2 c (by rwa [List.head?_reverse] at hc))]
  exact List.reverse_reverse s

theorem pyStrip_idem (s : Str) : pyStrip (pyStrip s) = pyStrip s :=
  pyStrip_of_stripped _ (pyStrip_stripped s)

theorem pyStrip_subset (s : Str) : ∀ c ∈ pyStrip s, c ∈ s := by
  intro c hc
  unfold pyStrip at hc
  rw [List.mem_reverse] at hc
  have hc2 := (List.dropWhile_sublist (l := (s.dropWhile pySpace).reverse) pySpace).subset hc
  rw [List.mem_reverse] at hc2
  exact (List.dropWhile_sublist pySpace).subset hc2

theorem scanF_chars (fuel : Nat) : ∀ (s : Str) (e : Nat) (m : List (Nat × Str)),
    (∀ c ∈ (scanF fuel s e m).1, c ∈ s) ∧
    (∀ pn ∈ (scanF fuel s e m).2, pn ∈ m ∨ ∀ c ∈ pn.2, c ∈ s) := by
  induction fuel with
  | zero =>
    intro s e m
    exact ⟨by simp [scanF], fun pn hpn => Or.inl (by simpa [scanF] using hpn)⟩
  | succ fuel ih =>
    intro s e m
    cases s with
    | nil =>
      exact ⟨by simp [scanF], fun pn hpn => Or.inl (by simpa [scanF] using hpn)⟩
    | cons c rest =>
      by_cases hc : c = '('
      · rcases hr : readChord rest with _ | ⟨tok, r⟩
        · obtain ⟨ha, hb⟩ := ih rest (e + 1) m
          constructor
          · intro d hd
            simp only [scanF, if_pos hc, hr, List.mem_cons] at hd
            rcases hd with h | h
            · exact List.mem_cons.2 (Or.inl h)
            · exact List.mem_cons.2 (Or.inr (ha d h))
          · intro pn hpn
            simp only [scanF, if_pos hc, hr] at hpn
            rcases hb pn hpn with h | h
            · exact Or.inl h
            · exact Or.inr fun d hd => List.mem_cons_of_mem _ (h d hd)
        · obtain ⟨hdecomp, -⟩ := readChord_eq_some hr
          obtain ⟨ha, hb⟩ := ih r e (dictInsert m (Nat.max (maxPosOf m) e) tok)
          have hrsub : ∀ d ∈ r, d ∈ c :: rest := by
            intro d hd
            apply List.mem_cons_of_mem
            rw [hdecomp]
            exact List.mem_append_right _ (List.mem_cons_of_mem _ hd)
          have htoksub : ∀ d ∈ tok, d ∈ c :: rest := by
            intro d hd
            apply List.mem_cons_of_mem
            rw [hdecomp]
            exact List.mem_append_left _ hd
          constructor
          · intro d hd
            simp only [scanF, if_pos hc, hr] at hd
            exact hrsub d (ha d hd)
          · intro pn hpn
            simp only [scanF, if_pos hc, hr] at hpn
            rcases hb pn hpn with h | h
            · rw [scan_dictInsert m e tok] at h
              rcases List.mem_append.1 h with h' | h'
              · exact Or.inl h'
              · simp only [List.mem_singleton] at h'
                subst h'
                exact Or.inr htoksub
            · exact Or.inr fun d hd => hrsub d (h d hd)
      · obtain ⟨ha, hb⟩ := ih rest (e + 1) m
        constructor
        · intro d hd
          simp only [scanF, if_neg hc, List.mem_cons] at hd
          rcases hd with h | h
          · exact List.mem_cons.2 (Or.inl h)
          · exact List.mem_cons.2 (Or.inr (ha d h))
        · intro pn hpn
          simp only [scanF, if_neg hc] at hpn
          rcases hb pn hpn with h | h
          · exact Or.inl h
          · exact Or.inr fun d hd => List.mem_cons_of_mem _ (h d hd)

theorem renderChordsAux_mem (cs : List (Nat × Str)) : ∀ (t : Str) (add : Nat) (d : Char),
    d ∈ renderChordsAux t cs add → d ∈ t ∨ d = '(' ∨ d = ')' ∨ ∃ pn ∈ cs, d ∈ pn.2 := by
  induction cs with
  | nil => intro t add d hd; exact Or.inl hd
  | cons pn cs ih =>
    obtain ⟨p, n⟩ := pn
    intro t add d hd
    rcases ih _ _ d hd with h | h | h | ⟨qn, hqn, hq⟩
    · unfold insertAt at h
      rcases List.mem_append.1 h with h' | h'
      · rcases List.mem_append.1 h' with h'' | h''
        · exact Or.inl (List.take_subset _ _ h'')
        · rcases List.mem_cons.1 h'' with h3 | h3
          · exact Or.inr (Or.inl h3)
          · rcases List.mem_append.1 h3 with h4 | h4
            · exact Or.inr (Or.inr (Or.inr ⟨(p, n), List.mem_cons_self _ _, h4⟩))
            · simp only [List.mem_singleton] at h4
              exact Or.inr (Or.inr (Or.inl h4))
      · exact Or.inl (List.drop_subset _ _ h')
    · exact Or.inr (Or.inl h)
    · exact Or.inr (Or.inr (Or.inl h))
    · exact Or.inr (Or.inr (Or.inr ⟨qn, List.mem_cons_of_mem _ hqn, hq⟩))

/-! ## Normalizer lemmas -/

theorem normalizeLines_cons_skip (l : Str) (rest : List Str)
    (h1 : is_chord_line l = false) (h2 : is_inline_chord_lyrics l = false) :
    normalizeLines (l :: rest) = l :: normalizeLines rest := by
  cases rest with
  | nil => simp [normalizeLines, h2]
  | cons l2 rest' => simp [normalizeLines, h1, h2]

theorem normalizeLines_id (ls : List Str)
    (h : ∀ l ∈ ls, is_chord_line l = false ∧ is_inline_chord_lyrics l = false) :
    normalizeLines ls = ls := by
  induction ls with
  | nil => rfl
  | cons l rest ih =>
    rw [normalizeLines_cons_skip l rest (h l (List.mem_cons_self _ _)).1
      (h l (List.mem_cons_self _ _)).2]
    rw [ih fun x hx => h x (List.mem_cons_of_mem _ hx)]

/-! ## Parse decomposition and `finditer` lemmas -/

theorem accOpts_decomp (s : Str) : ∀ p ∈ accOpts s, s = p.1 ++ p.2 := by
  intro p hp
  cases s with
  | nil =>
    simp only [accOpts, List.mem_singleton] at hp
    subst hp; rfl
  | cons c rest =>
    by_cases h : isAcc c
    · simp only [accOpts, if_pos h, List.mem_cons, List.mem_singleton,
        List.not_mem_nil, or_false] at hp
      rcases hp with hp | hp <;> (subst hp; rfl)
    · simp only [accOpts, if_neg h, List.mem_singleton] at hp
      subst hp; rfl

theorem qualOpts_decomp (s : Str) : ∀ p ∈ qualOpts s, s = p.1 ++ p.2 := by
  intro p hp
  rcases List.mem_append.1 hp with h | h
  · rw [List.mem_filterMap] at h
    obtain ⟨q, _, hqq⟩ := h
    by_cases htake : s.take q.length = q
    · rw [if_pos htake, Option.some.injEq] at hqq
      subst hqq
      conv_lhs => rw [← List.take_append_drop q.length s]
      rw [htake]
    · rw [if_neg htake] at hqq
      exact absurd hqq (by simp)
  · simp only [List.mem_singleton] at h
    subst h; rfl

theorem digitOpts_decomp (s : Str) : ∀ p ∈ digitOpts s, s = p.1 ++ p.2 := by
  intro p hp
  simp only [digitOpts, List.mem_map] at hp
  obtain ⟨k, _, hk⟩ := hp
  subst hk
  exact (List.take_append_drop k s).symm

theorem bassOpts_decomp (s : Str) : ∀ p ∈ bassOpts s, s = p.1 ++ p.2 := by
  intro p hp
  cases s with
  | nil =>
    simp only [bassOpts, List.mem_singleton] at hp
    subst hp; rfl
  | cons c1 t =>
    cases t with
    | nil =>
      simp only [bassOpts, List.mem_singleton] at hp
      subst hp; rfl
    | cons c2 rest =>
      by_cases h : c1 = '/' && isRoot c2
      · simp only [bassOpts, if_pos h] at hp
        rcases List.mem_append.1 hp with h' | h'
        · rw [List.mem_map] at h'
          obtain ⟨a, ha, haeq⟩ := h'
          subst haeq
          have := accOpts_decomp rest a ha
          simp only [List.cons_append]
          rw [← this]
        · simp only [List.mem_singleton] at h'
          subst h'; rfl
      · simp only [bassOpts, if_neg h, List.mem_singleton] at hp
        subst hp; rfl

theorem chordParses_decomp (s : Str) : ∀ p ∈ chordParses s, s = p.1 ++ p.2 ∧ p.1 ≠ [] := by
  intro p hp
  cases s with
  | nil => simp [chordParses] at hp
  | cons c rest =>
    by_cases h : isRoot c
    · simp only [chordParses, if_pos h, List.mem_flatMap, List.mem_map] at hp
      obtain ⟨a, ha, q, hq, d, hd, b, hb, hpeq⟩ := hp
      subst hpeq
      refine ⟨?_, by simp⟩
      have h1 := accOpts_decomp rest a ha
      have h2 := qualOpts_decomp a.2 q hq
      have h3 := digitOpts_decomp q.2 d hd
      have h4 := bassOpts_decomp d.2 b hb
      simp only [List.cons_append, List.append_assoc]
      rw [← h4, ← h3, ← h2, ← h1]
    · simp [chordParses, if_neg h] at hp

theorem bareMatchAt_decomp {s tok after : Str}
    (h : bareMatchAt s = some (tok, after)) : s = tok ++ after ∧ tok ≠ [] := by
  have hmem := List.mem_of_find?_eq_some h
  exact chordParses_decomp s (tok, after) hmem

theorem finditerF_sorted (fuel : Nat) : ∀ (s : Str) (i : Nat) (w : Bool),
    (∀ pn ∈ finditerF fuel s i w, i ≤ pn.1) ∧
    List.Pairwise (· < ·) ((finditerF fuel s i w).map Prod.fst) := by
  induction fuel with
  | zero => intro s i w; exact ⟨by simp [finditerF], by simp [finditerF]⟩
  | succ fuel ih =>
    intro s i w
    cases s with
    | nil => exact ⟨by simp [finditerF], by simp [finditerF]⟩
    | cons c rest =>
      by_cases hw : w = true
      · obtain ⟨h1, h2⟩ := ih rest (i + 1) (wordChar c)
        constructor
        · intro pn hpn
          simp only [finditerF, if_pos hw] at hpn
          exact le_trans (Nat.le_succ i) (h1 pn hpn)
        · simpa [finditerF, hw] using h2
      · rcases hm : bareMatchAt (c :: rest) with _ | ⟨tok, after⟩
        · obtain ⟨h1, h2⟩ := ih rest (i + 1) (wordChar c)
          constructor
          · intro pn hpn
            simp only [finditerF, if_neg hw, hm] at hpn
            exact le_trans (Nat.le_succ i) (h1 pn hpn)
          · simpa [finditerF, hw, hm] using h2
        · obtain ⟨hdec, hne⟩ := bareMatchAt_decomp hm
          have htl : 1 ≤ tok.length := by
            cases tok with
            | nil => exact absurd rfl hne
            | cons a t => simp
          obtain ⟨h1, h2⟩ := ih after (i + tok.length) (wordChar (tok.getLastD ' '))
          constructor
          · intro pn hpn
            simp only [finditerF, if_neg hw, hm, List.mem_cons] at hpn
            rcases hpn with h | h
            · subst h; exact le_refl i
            · exact le_trans (Nat.le_add_right i tok.length) (h1 pn h)
          · simp only [finditerF, if_neg hw, hm, List.map_cons]
            refine List.pairwise_cons.2 ⟨?_, h2⟩
            intro k hk
            rw [List.mem_map] at hk
            obtain ⟨pn, hpn, hkeq⟩ := hk
            subst hkeq
            exact lt_of_lt_of_le (by omega) (h1 pn hpn)

/-! ## Merge lemmas -/

theorem mergeAux_nil_chords : ∀ (ll : Str) (i : Nat), mergeAux [] ll i = ll := by
  intro ll
  induction ll with
  | nil => intro i; rfl
  | cons c rest ih => intro i; simp [mergeAux, ih]

theorem mergeAux_stuck : ∀ (ll : Str) (cs : List (Nat × Str)) (i : Nat),
    (∀ pn ∈ cs, pn.1 < i ∨ i + ll.length ≤ pn.1) → mergeAux cs ll i = ll := by
  intro ll
  induction ll with
  | nil =>
    intro cs i _
    cases cs <;> rfl
  | cons c rest ih =>
    intro cs i h
    cases cs with
    | nil => exact mergeAux_nil_chords _ _
    | cons pn cs' =>
      obtain ⟨p, n⟩ := pn
      have hp := h (p, n) (List.mem_cons_self _ _)
      have hne : i ≠ p := by
        simp only [List.length_cons] at hp
        omega
      simp only [mergeAux, if_neg hne]
      rw [ih ((p, n) :: cs') (i + 1)]
      intro qn hqn
      have hq := h qn hqn
      simp only [List.length_cons] at hq
      omega

theorem mergeAux_filter : ∀ (ll : Str) (cs : List (Nat × Str)) (i : Nat),
    List.Pairwise (· < ·) (cs.map Prod.fst) →
    (∀ pn ∈ cs, i ≤ pn.1) →
    mergeAux cs ll i = mergeAux (cs.filter fun pn => pn.1 < i + ll.length) ll i := by
  intro ll
  induction ll with
  | nil =>
    intro cs i _ _
    cases h : cs.filter fun pn => pn.1 < i + ([] : Str).length with
    | nil => cases cs <;> rfl
    | cons a t => cases cs <;> rfl
  | cons c rest ih =>
    intro cs i hpw hge
    cases cs with
    | nil => rfl
    | cons pn cs' =>
      obtain ⟨p, n⟩ := pn
      have hgep : i ≤ p := hge (p, n) (List.mem_cons_self _ _)
      have hpw2 := List.pairwise_cons.1
        (show List.Pairwise (· < ·) (p :: cs'.map Prod.fst) from hpw)
      have hcs'lt : ∀ qn ∈ cs', p < qn.1 := fun qn hqn =>
        hpw2.1 qn.1 (List.mem_map_of_mem Prod.fst hqn)
      simp only [List.length_cons]
      have hlen_eq : i + (rest.length + 1) = (i + 1) + rest.length := by omega
      simp only [hlen_eq]
      by_cases hip : i = p
      · rw [List.filter_cons_of_pos (by simp only [decide_eq_true_eq]; omega)]
        simp only [mergeAux, if_pos hip]
        have hih := ih cs' (i + 1) hpw2.2 fun qn hqn => by
          have := hcs'lt qn hqn
          omega
        rw [← hih]
      · have hlt2 : i < p := lt_of_le_of_ne hgep hip
        by_cases hthr : p < (i + 1) + rest.length
        · rw [List.filter_cons_of_pos (by simp only [decide_eq_true_eq]; omega)]
          simp only [mergeAux, if_neg hip]
          have hih := ih ((p, n) :: cs') (i + 1)
            hpw
            (by
              intro qn hqn
              rcases List.mem_cons.1 hqn with h | h
              · subst h; omega
              · have := hcs'lt qn h
                omega)
          rw [hih, List.filter_cons_of_pos (by simp only [decide_eq_true_eq]; omega)]
        · have hall : ∀ qn ∈ (p, n) :: cs', qn.1 < i ∨ i + (c :: rest).length ≤ qn.1 := by
            intro qn hqn
            right
            simp only [List.length_cons]
            rcases List.mem_cons.1 hqn with h | h
            · rw [h]
              show i + (rest.length + 1) ≤ p
              omega
            · have := hcs'lt qn h
              omega
          have hfilt : ((p, n) :: cs').filter (fun pn => pn.1 < (i + 1) + rest.length) = [] := by
            rw [List.filter_eq_nil_iff]
            intro qn hqn
            have h1 := hall qn hqn
            have h2 := hge qn hqn
            simp only [List.length_cons] at h1
            simp only [decide_eq_true_eq]
            omega
          rw [hfilt, mergeAux_stuck (c :: rest) _ i hall, mergeAux_nil_chords]

theorem merge_drops_out_of_range (cl ll : Str) :
    merge_chord_and_lyric_lines cl ll
      = mergeAux ((CHORD_REGEX_finditer cl).filter fun pn => pn.1 < ll.length) ll 0 := by
  unfold merge_chord_and_lyric_lines
  obtain ⟨h1, h2⟩ := finditerF_sorted cl.length cl 0 false
  have h := mergeAux_filter ll (CHORD_REGEX_finditer cl) 0 h2 h1
  simpa using h

theorem raw_mutates (ls : List SongLine) :
    (convert_song_lines_into_raw_lyrics ls).2
      = ls.map fun l => ⟨renderChordsAux l.text l.chords 0, l.chords⟩ := by
  induction ls with
  | nil => rfl
  | cons l ls ih => simp [convert_song_lines_into_raw_lyrics, ih]

/-! ## Claim theorems -/

/-- C1: the claim states that adjacent bracket groups with the same effective
stripped position are all recorded as distinct entries *sharing that
position*, none moved.  The code keeps both names in left-to-right order but
assigns the second chord position `max(max(keys) + 1, start - sub) = 1`
instead of the shared effective position `0`: the chord is moved to a
different position.  Evaluation of the tokenizer at the failing input
`"(Am)(Dm)x"` (both chords have effective stripped position 0). -/
theorem C1_same_position_chord_is_moved :
    convert_lyrics_into_song_lines ("(Am)(Dm)x".toList)
      = [⟨['x'], [(0, ['A', 'm']), (1, ['D', 'm'])]⟩] := by
  decide

/-- C2: for lyrics in which no line has glued (adjacent) bracket groups —
so no annotated position carries a second chord — rendering the parsed
structure back to inline-bracket form reproduces the input up to trimming
each line: parsing with `convert_lyrics_into_song_lines` followed by
`convert_song_lines_into_raw_lyrics` is the identity on per-line-trimmed
text. -/
theorem C2_raw_roundtrip (x : Str)
    (h : ∀ l ∈ splitLines x, noAdjacentChords (pyStrip l) = true) :
    (splitLines (convert_song_lines_into_raw_lyrics
        (convert_lyrics_into_song_lines x)).1).map pyStrip
      = (splitLines x).map pyStrip := by
  have hconv : convert_lyrics_into_song_lines x
      = (splitLines x).map fun l =>
          (⟨(tokenizeLine (pyStrip l)).1, (tokenizeLine (pyStrip l)).2⟩ : SongLine) := rfl
  rw [hconv, raw_fst_eq, List.map_map]
  have hrend : ∀ l ∈ splitLines x,
      ((fun line : SongLine => renderChordsAux line.text line.chords 0) ∘ fun l =>
        (⟨(tokenizeLine (pyStrip l)).1, (tokenizeLine (pyStrip l)).2⟩ : SongLine)) l
        = pyStrip l := by
    intro l hl
    exact line_roundtrip (pyStrip l) (h l hl)
  rw [List.map_congr_left hrend]
  rw [splitLines_termNL ((splitLines x).map pyStrip)
    (by
      intro r hr
      rw [List.mem_map] at hr
      obtain ⟨l, hl, hrl⟩ := hr
      subst hrl
      intro hmem
      exact splitLines_no_newline x l hl (pyStrip_subset l '\n' hmem))]
  rw [List.map_map]
  exact List.map_congr_left fun l _ => pyStrip_idem l

/-- Witness for C2 at the spec's own round-trip example. -/
theorem C2_raw_roundtrip_witness :
    (∀ l ∈ splitLines ("(Bm)Help! I need some(Bm/A)body,\n(G)help!".toList),
      noAdjacentChords (pyStrip l) = true) ∧
    (splitLines (convert_song_lines_into_raw_lyrics
        (convert_lyrics_into_song_lines
          ("(Bm)Help! I need some(Bm/A)body,\n(G)help!".toList))).1).map pyStrip
      = (splitLines ("(Bm)Help! I need some(Bm/A)body,\n(G)help!".toList)).map pyStrip :=
  ⟨by decide, C2_raw_roundtrip ("(Bm)Help! I need some(Bm/A)body,\n(G)help!".toList) (by decide)⟩

/-- C3 counterexample: normalization is not idempotent.  The line `"A("`
passes the inline test (`A` parses as a chord and is followed by the
non-space `'('`), but `embed_inline_chords` hits its lyric-token fallback,
whose `tokens[len(chords) + len(lyrics_tokens) - 1:]` slice re-includes the
token, duplicating it on every pass: `normalize("A(") = "A( A("` while
`normalize("A( A(") = "A( A( A("`. -/
theorem C3_counterexample :
    normalize_lyrics (normalize_lyrics ("A(".toList)) ≠ normalize_lyrics ("A(".toList) := by
  decide

/-- C3 amended: normalization is idempotent on every block whose normalized
lines all match neither convention test (no embedded newline, and the final
normalized line non-empty, so the join/split cycle is lossless); in general
idempotence fails. -/
theorem C3_normalize_idem_conditional (x : Str)
    (h : ∀ l ∈ normalizeLines (splitLines x),
      is_chord_line l = false ∧ is_inline_chord_lyrics l = false ∧ '\n' ∉ l)
    (hlast : (normalizeLines (splitLines x)).getLast? ≠ some []) :
    normalize_lyrics (normalize_lyrics x) = normalize_lyrics x := by
  unfold normalize_lyrics
  rw [splitLines_joinNL _ (fun l hl => (h l hl).2.2) hlast]
  rw [normalizeLines_id _ fun l hl => ⟨(h l hl).1, (h l hl).2.1⟩]

/-- Witness for the amended C3. -/
theorem C3_witness :
    ((∀ l ∈ normalizeLines (splitLines ("(Am)Hello\nworld".toList)),
      is_chord_line l = false ∧ is_inline_chord_lyrics l = false ∧ '\n' ∉ l) ∧
     (normalizeLines (splitLines ("(Am)Hello\nworld".toList))).getLast? ≠ some []) ∧
    normalize_lyrics (normalize_lyrics ("(Am)Hello\nworld".toList))
      = normalize_lyrics ("(Am)Hello\nworld".toList) :=
  ⟨⟨by decide, by decide⟩,
   C3_normalize_idem_conditional ("(Am)Hello\nworld".toList) (by decide) (by decide)⟩

/-- C4 counterexample: a chord position may exceed the length of the stripped
text.  On `"(A)(B)"` the stripped text is empty but the second chord is
stored at position 1 (collision bump), violating `position ≤ len(text)`. -/
theorem C4_counterexample :
    ¬ ∀ line ∈ convert_lyrics_into_song_lines ("(A)(B)".toList),
        ∀ pn ∈ line.chords, pn.1 ≤ line.text.length := by
  decide

/-- C4 amended: for every input block and produced line, annotation positions
are strictly increasing (hence non-decreasing) along the ordered annotation
sequence, and every position is `< len(text) + (number of annotations)`;
the claimed bound `position ≤ len(text)` itself fails only through the
collision bump for adjacent bracket groups. -/
theorem C4_positions (lyrics : Str) :
    ∀ line ∈ convert_lyrics_into_song_lines lyrics,
      List.Chain' (· < ·) (line.chords.map Prod.fst) ∧
      ∀ pn ∈ line.chords, pn.1 < line.text.length + line.chords.length := by
  intro line hline
  rw [show convert_lyrics_into_song_lines lyrics
      = (splitLines lyrics).map fun l =>
          (⟨(tokenizeLine (pyStrip l)).1, (tokenizeLine (pyStrip l)).2⟩ : SongLine) from rfl,
    List.mem_map] at hline
  obtain ⟨l, hl, heq⟩ := hline
  subst heq
  obtain ⟨hpw, hbnd⟩ := scanF_sorted_bound (pyStrip l).length (pyStrip l) 0 [] (by simp)
  refine ⟨hpw.chain', ?_⟩
  intro pn hpn
  have hk := hbnd pn.1 (List.mem_map_of_mem Prod.fst hpn)
  simpa [maxPosOf] using hk

/-- Witness for the amended C4 at the adjacent-chords input. -/
theorem C4_witness :
    List.Chain' (· < ·)
      ((⟨['x'], [(0, ['A']), (1, ['B'])]⟩ : SongLine).chords.map Prod.fst) ∧
    ∀ pn ∈ (⟨['x'], [(0, ['A']), (1, ['B'])]⟩ : SongLine).chords,
      pn.1 < (⟨['x'], [(0, ['A']), (1, ['B'])]⟩ : SongLine).text.length
        + (⟨['x'], [(0, ['A']), (1, ['B'])]⟩ : SongLine).chords.length :=
  C4_positions ("(A)(B)x".toList) ⟨['x'], [(0, ['A']), (1, ['B'])]⟩ (by decide)

/-- C5: the bracketed-form inner grammar and the bare-form matcher disagree.
`"C#"` is accepted by the inner token grammar — `"(C#)x"` tokenizes to chord
`C#` — but `CHORD_REGEX.fullmatch` rejects it: its trailing `\b` fails after
the non-word character `'#'`. -/
theorem C5_matchers_disagree :
    chordTok ("C#".toList) = true ∧
    CHORD_REGEX_fullmatch ("C#".toList) = false ∧
    convert_lyrics_into_song_lines ("(C#)x".toList) = [⟨['x'], [(0, ['C', '#'])]⟩] := by
  decide

/-- C6: a line matching neither convention — not a chord line followed by
another line (the separate-chord-line convention needs a successor) and not
an inline-glued line — is emitted by the normalizer unchanged,
byte-identically, and processing continues with the remaining lines. -/
theorem C6_unmatched_line_passes_through (l : Str) (rest : List Str)
    (h1 : is_chord_line l = false ∨ rest = [])
    (h2 : is_inline_chord_lyrics l = false) :
    normalizeLines (l :: rest) = l :: normalizeLines rest := by
  rcases h1 with h1 | h1
  · exact normalizeLines_cons_skip l rest h1 h2
  · subst h1
    simp [normalizeLines, h2]

/-- Witness for C6: an already-bracketed line, a plain lyric line, and a
chord-heavy final line (no successor, so the first convention cannot
apply). -/
theorem C6_witness :
    (is_chord_line ("(Am)Hello world".toList) = false ∧
     is_inline_chord_lyrics ("(Am)Hello world".toList) = false ∧
     normalizeLines ["(Am)Hello world".toList, "plain words here".toList]
       = "(Am)Hello world".toList :: normalizeLines ["plain words here".toList]) ∧
    (is_chord_line ("just plain words".toList) = false ∧
     is_inline_chord_lyrics ("just plain words".toList) = false ∧
     normalizeLines ["just plain words".toList]
       = "just plain words".toList :: normalizeLines []) ∧
    (is_chord_line ("C G".toList) = true ∧
     is_inline_chord_lyrics ("C G".toList) = false ∧
     normalizeLines ["C G".toList] = "C G".toList :: normalizeLines []) :=
  ⟨⟨by decide, by decide,
    C6_unmatched_line_passes_through _ _ (Or.inl (by decide)) (by decide)⟩,
   ⟨by decide, by decide,
    C6_unmatched_line_passes_through _ _ (Or.inl (by decide)) (by decide)⟩,
   ⟨by decide, by decide,
    C6_unmatched_line_passes_through _ _ (Or.inr rfl) (by decide)⟩⟩

/-- C7 counterexample: `normalize("D A A7 DHey Jude")` is not
`"(D)(A)(A7)(D)Hey Jude"` — the code joins the bracket run and the lyric
part with `f"{chord_part} {lyrics_part}"`, leaving a space before `Hey`. -/
theorem C7_counterexample :
    normalize_lyrics ("D A A7 DHey Jude".toList) ≠ "(D)(A)(A7)(D)Hey Jude".toList := by
  decide

/-- C7 amended: the glued token `DHey` is split into chord `D` and word
`Hey` and the leading bare chords are bracketed, but the rebuilt line
separates the bracket run from the first word with a single space:
`normalize("D A A7 DHey Jude") = "(D)(A)(A7)(D) Hey Jude"`. -/
theorem C7_glued_split :
    normalize_lyrics ("D A A7 DHey Jude".toList) = "(D)(A)(A7)(D) Hey Jude".toList := by
  decide

/-- C8 counterexample: the display codec's chord row for the fixture line is
not `"C1   C2"` — each chord name is followed by one space, so the row
carries a trailing space (as the repository's own test fixture records). -/
theorem C8_counterexample :
    convert_song_lines_into_formatted_lyrics
        [⟨"Line 1 of song 1".toList, [(0, ['C', '1']), (5, ['C', '2'])]⟩]
      ≠ "C1   C2\nLine 1 of song 1\n".toList := by
  decide

/-- C8 amended: the display codec renders the fixture line as the chord row
`"C1   C2 "` (C1 at column 0, C2 at column 5, a space after each name)
followed by the lyric row, each newline-terminated. -/
theorem C8_display_row :
    convert_song_lines_into_formatted_lyrics
        [⟨"Line 1 of song 1".toList, [(0, ['C', '1']), (5, ['C', '2'])]⟩]
      = "C1   C2 \nLine 1 of song 1\n".toList := by
  decide

/-- C9 counterexample: `convert_song_lines_into_raw_lyrics` does not leave
its lines unchanged — it writes the bracket-rendered text back into
`line.text` — and calling it again on the lines it leaves behind returns a
different (double-bracketed) string. -/
theorem C9_counterexample :
    ((convert_song_lines_into_raw_lyrics [⟨['H', 'i'], [(0, ['C'])]⟩]).2
        ≠ [⟨['H', 'i'], [(0, ['C'])]⟩]) ∧
    (convert_song_lines_into_raw_lyrics
        ((convert_song_lines_into_raw_lyrics [⟨['H', 'i'], [(0, ['C'])]⟩]).2)).1
      ≠ (convert_song_lines_into_raw_lyrics [⟨['H', 'i'], [(0, ['C'])]⟩]).1 := by
  decide

/-- C9 amended: the display renderer only reads its input, but the raw
renderer overwrites each line's text with its bracket-rendered form while
leaving the chords lists unchanged — so repeated calls on the same line
objects return different strings. -/
theorem C9_raw_renderer_mutates (ls : List SongLine) :
    (convert_song_lines_into_raw_lyrics ls).2
      = ls.map fun l => ⟨renderChordsAux l.text l.chords 0, l.chords⟩ :=
  raw_mutates ls

/-- C10: in the separate-chord-line merge, chord tokens whose start column is
`≥ len(lyric_line)` are silently omitted (the merge equals the merge of the
in-range chords only), and a chord line immediately followed by an empty
line is consumed while only the empty line is emitted. -/
theorem C10_out_of_range_chords_dropped :
    (∀ cl ll : Str, merge_chord_and_lyric_lines cl ll
        = mergeAux ((CHORD_REGEX_finditer cl).filter fun pn => pn.1 < ll.length) ll 0) ∧
    ∀ (l : Str) (rest : List Str), is_chord_line l = true →
      normalizeLines (l :: ([] : Str) :: rest) = ([] : Str) :: normalizeLines rest := by
  constructor
  · exact merge_drops_out_of_range
  · intro l rest h
    have hmerge : merge_chord_and_lyric_lines l [] = [] := by
      unfold merge_chord_and_lyric_lines
      cases CHORD_REGEX_finditer l <;> rfl
    cases rest with
    | nil => simp only [normalizeLines, if_pos h, hmerge]
    | cons l3 rest' => simp only [normalizeLines, if_pos h, hmerge]

/-- Witness for C10: `"C G"` above `"x"` drops the out-of-range `G`, and a
chord line above an empty line disappears entirely. -/
theorem C10_witness :
    (merge_chord_and_lyric_lines ("C G".toList) ("x".toList)
      = mergeAux ((CHORD_REGEX_finditer ("C G".toList)).filter
          fun pn => pn.1 < ("x".toList).length) ("x".toList) 0) ∧
    (is_chord_line ("C G".toList) = true ∧
     normalizeLines ["C G".toList, []] = [([] : Str)]) :=
  ⟨C10_out_of_range_chords_dropped.1 ("C G".toList) ("x".toList),
   by decide,
   C10_out_of_range_chords_dropped.2 ("C G".toList) [] (by decide)⟩

end Chords
